import Mathlib

/-!
A shallow embedding of the incremental reconciliation engine of
GoWebComponents (`src/fiber/fiber.go`): the virtual-node model
(`createElement`, `Text`), the positional hook store (`useState`,
`useEffect`, `areDepsEqual`), the scheduler (`scheduleUpdate`,
`workLoop`), the child reconciler (`reconcileChildren`) and the commit
phase (`commitRoot`, `executeEffects`, `commitWork`, `commitDeletion`).

Go `interface{}` values compared with `reflect.DeepEqual` are modelled by
an inductive value type `Val` with decidable (structural) equality.
Opaque function-component references are modelled by natural-number
identifiers compared for equality (Go compares function pointers).
`js.Value` host handles are modelled by `Option Nat` (`none` stands for
the undefined/null zero value `js.Value{}`).
-/

namespace GWC

/-- A dynamic value (`interface{}`); `reflect.DeepEqual` becomes decidable
structural equality on this type. -/
inductive Val where
  | natV : Nat → Val
  | strV : String → Val
deriving DecidableEq, Repr

/-- The `Type` field of an `Element` / the `typeOf` field of a `Fiber`:
either an opaque function-component reference (compared by pointer, here
by identifier) or a tag string (host tag, `"TEXT_ELEMENT"`, `"ROOT"`). -/
inductive NodeType where
  | funcRef : Nat → NodeType
  | tag : String → NodeType
deriving DecidableEq, Repr

mutual
/-- `Element` from fiber.go: a virtual DOM node with a type and a props
map.  The Go struct also stores the children slice separately, but the
engine only ever reads them through `props["children"]`, which is where
`createElement` puts them; the props map (insertion ordered here as an
association list) is the single source of truth in this embedding. -/
inductive Element where
  | mk : NodeType → List (String × PropEntry) → Element

/-- A value stored in a props map: either a plain dynamic value or the
`children` slice (`[]interface{}` whose elements are `*Element` or raw
strings). -/
inductive PropEntry where
  | val : Val → PropEntry
  | childList : List ChildVal → PropEntry

/-- One entry of a children slice: a `*Element`, or a bare string passed
directly as a child. -/
inductive ChildVal where
  | elem : Element → ChildVal
  | str : String → ChildVal
end

/-- The type of an element. -/
def Element.typeOfE : Element → NodeType
  | .mk t _ => t

/-- The props map of an element. -/
def Element.propsOf : Element → List (String × PropEntry)
  | .mk _ ps => ps

/-- Go map assignment `m[k] = v` on an association list: replace the
first binding of `k`, or append a new binding. -/
def setProp : List (String × PropEntry) → String → PropEntry → List (String × PropEntry)
  | [], k, v => [(k, v)]
  | (k', v') :: rest, k, v =>
      if k' = k then (k, v) :: rest else (k', v') :: setProp rest k v

/-- Go map lookup `m[k]` on an association list. -/
def lookupProp : List (String × PropEntry) → String → Option PropEntry
  | [], _ => none
  | (k, v) :: rest, key => if k = key then some v else lookupProp rest key

/-- `createElement(typ, props, children...)` from fiber.go: a nil props
map becomes an empty one, and `props["children"]` is set to the children
slice exactly as passed (`[]interface{}{}` when there are none).  The
children are NOT inspected or wrapped. -/
def createElement (typ : NodeType) (props : List (String × PropEntry))
    (children : List ChildVal) : Element :=
  Element.mk typ (setProp props "children" (PropEntry.childList children))

/-- `Text(content)` from fiber.go: a `"TEXT_ELEMENT"` element whose
`nodeValue` prop is the content, with no children argument. -/
def Text (content : String) : Element :=
  createElement (NodeType.tag "TEXT_ELEMENT")
    [("nodeValue", PropEntry.val (Val.strV content))] []

/-- Whether a child entry is a text-type virtual node. -/
def isTextElemChild : ChildVal → Bool
  | .elem (.mk (.tag "TEXT_ELEMENT") _) => true
  | _ => false

theorem lookupProp_setProp (ps : List (String × PropEntry)) (k : String) (v : PropEntry) :
    lookupProp (setProp ps k v) k = some v := by
  induction ps with
  | nil => simp [setProp, lookupProp]
  | cons hd tl ih =>
    obtain ⟨k', v'⟩ := hd
    by_cases hk : k' = k
    · simp [setProp, lookupProp, hk]
    · simp [setProp, lookupProp, hk, ih]

/-- **C7, counterexample.**  Passing the bare string `"hello"` as a child
to the builder stores it verbatim in the `children` entry of the props:
it is not wrapped into a text-type virtual node. -/
theorem createElement_string_child_not_wrapped :
    lookupProp (createElement (NodeType.tag "div") [] [ChildVal.str "hello"]).propsOf
        "children"
      = some (PropEntry.childList [ChildVal.str "hello"])
    ∧ isTextElemChild (ChildVal.str "hello") = false :=
  ⟨rfl, rfl⟩

/-- **C7, amended.**  For every call to the virtual-node builder, the
result's props contains a `children` entry holding the children exactly
as passed, as an ordered list (bare strings included, unwrapped); the
separate `Text` constructor is what produces a text-type virtual node,
carrying its content in the `nodeValue` prop. -/
theorem createElement_children_entry (typ : NodeType)
    (props : List (String × PropEntry)) (children : List ChildVal) :
    lookupProp (createElement typ props children).propsOf "children"
      = some (PropEntry.childList children)
    ∧ (Text "x").typeOfE = NodeType.tag "TEXT_ELEMENT"
    ∧ lookupProp (Text "x").propsOf "nodeValue" = some (PropEntry.val (Val.strV "x")) := by
  refine ⟨?_, rfl, rfl⟩
  exact lookupProp_setProp props "children" (PropEntry.childList children)

/-! ## Hook slot store (`Hooks`, `useState`, `useEffect`, `areDepsEqual`) -/

/-- The `Hooks` struct of fiber.go.  Effect callbacks are identified by
natural numbers; `deps` entries are `Option (List Val)` because Go
distinguishes a nil dependency slice (the "always" marker) from an empty
non-nil one. -/
structure Hooks where
  state : List Val
  deps : List (Option (List Val))
  effects : List Nat
  effectsInitialized : List Bool
  index : Nat
deriving DecidableEq, Repr

/-- `areDepsEqual(prevDeps, newDeps)` from fiber.go: nil matches only
nil, lengths must agree, then element-wise `reflect.DeepEqual`. -/
def areDepsEqual : Option (List Val) → Option (List Val) → Bool
  | none, none => true
  | none, some _ => false
  | some _, none => false
  | some p, some n =>
      if p.length ≠ n.length then false
      else (p.zip n).all fun pr => pr.1 = pr.2

/-- `useState(initialValue)` acting on the current fiber's hook store:
takes the slot at the current cursor, advances the cursor, and returns
the stored value (existing-state branch) or appends and returns the
initial value (initial-state branch).  The returned value is what the
getter closure reads back. -/
def useState (h : Hooks) (initialValue : Val) : Val × Hooks :=
  let position := h.index
  let h1 : Hooks := { h with index := h.index + 1 }
  if hlt : position < h1.state.length then
    (h1.state.get ⟨position, hlt⟩, h1)
  else
    (initialValue, { h1 with state := h1.state ++ [initialValue] })

/-- The `useState` setter body: `if !reflect.DeepEqual(old, new) then
write the slot and call scheduleUpdate`.  Scheduling is modelled
separately (`setStateOn`); this is the pure state effect, returning
whether an update was scheduled. -/
def setState (h : Hooks) (position : Nat) (newValue : Val) : Hooks × Bool :=
  if h.state.getD position (Val.natV 0) = newValue then
    (h, false)
  else
    ({ h with state := h.state.set position newValue }, true)

/-- The slice-extension loop of `useEffect`: `for
len(effectsInitialized) <= position` append `false` / nil-deps. -/
def extendSlots (h : Hooks) (position : Nat) : Hooks :=
  { h with
    effectsInitialized :=
      h.effectsInitialized ++
        List.replicate (position + 1 - h.effectsInitialized.length) false
    deps := h.deps ++ List.replicate (position + 1 - h.deps.length) none }

/-- `useEffect(effect, deps)` acting on the current fiber's hook store.
The gate: run when `!effectsInitialized[position]` (marking the slot
initialized), or when `deps` is nil, or when `areDepsEqual(prevDeps,
deps)` fails; a run appends the callback to `effects`.  The recorded
deps at the slot are always overwritten with the new deps. -/
def useEffect (h : Hooks) (effectId : Nat) (deps : Option (List Val)) : Hooks :=
  let position := h.index
  let h1 := extendSlots { h with index := h.index + 1 } position
  let isFirstRun := !(h1.effectsInitialized.getD position false)
  let h2 :=
    if isFirstRun then
      { h1 with effectsInitialized := h1.effectsInitialized.set position true }
    else h1
  let shouldRunEffect :=
    if isFirstRun then true
    else if deps = none then true
    else !(areDepsEqual (h1.deps.getD position none) deps)
  let h3 :=
    if shouldRunEffect then { h2 with effects := h2.effects ++ [effectId] } else h2
  { h3 with deps := h3.deps.set position deps }

/-- The hook initialization performed by `performUnitOfWork` before the
component function runs: when the alternate fiber has hooks, only
`state` and `deps` are copied (by value); `effects` and
`effectsInitialized` start out as fresh empty slices in either branch;
the cursor is reset to zero. -/
def seedHooks : Option Hooks → Hooks
  | some oldHooks =>
      { state := oldHooks.state, deps := oldHooks.deps
        effects := [], effectsInitialized := [], index := 0 }
  | none =>
      { state := [], deps := [], effects := [], effectsInitialized := [], index := 0 }

/-- One hook invocation inside a component function body. -/
inductive HookCall where
  | stateCall (initial : Val)
  | effectCall (effectId : Nat) (deps : Option (List Val))
deriving DecidableEq, Repr

/-- Running a component body = the sequence of its hook calls, threaded
through the fiber's hook store. -/
def runHooks : List HookCall → Hooks → Hooks
  | [], h => h
  | .stateCall init :: rest, h => runHooks rest (useState h init).2
  | .effectCall id deps :: rest, h => runHooks rest (useEffect h id deps)

/-- Running a body made only of `useState` calls, collecting the values
the getters observe. -/
def runStates : List Val → Hooks → List Val × Hooks
  | [], h => ([], h)
  | init :: rest, h =>
      ((useState h init).1 :: (runStates rest (useState h init).2).1,
       (runStates rest (useState h init).2).2)

/-- The hook bookkeeping of a commit (`executeEffects` /
`resetHookIndex`): queued effects are cleared and the cursor reset. -/
def commitHookStore (h : Hooks) : Hooks :=
  { h with effects := [], index := 0 }

/-! ## C1: dependency-gated effects -/

/-- **C1.**  Evaluation of the engine at the failing input: a component
whose body is the single call `useEffect(7, deps = [42])`, rendered on
two consecutive passes with identical deps.  After pass 1 commits, the
committed store records the slot as initialized (`effectsInitialized =
[true]`) and its deps as `[42]`; pass 2 passes the same `[42]`, so by
the claim the callback must be skipped — yet pass 2 queues it again
(`effects = [7]`), because `performUnitOfWork` seeds the new fiber's
hooks from the alternate copying only `state` and `deps`
(`seedHooks`), dropping `effectsInitialized`, so `isFirstRun` is true on
every pass. -/
theorem useEffect_requeued_despite_unchanged_deps :
    (commitHookStore
        (runHooks [HookCall.effectCall 7 (some [Val.natV 42])] (seedHooks none))).deps
      = [some [Val.natV 42]]
    ∧ (commitHookStore
        (runHooks [HookCall.effectCall 7 (some [Val.natV 42])] (seedHooks none))).effectsInitialized
      = [true]
    ∧ (runHooks [HookCall.effectCall 7 (some [Val.natV 42])]
        (seedHooks (some (commitHookStore
          (runHooks [HookCall.effectCall 7 (some [Val.natV 42])] (seedHooks none)))))).effects
      = [7] := by
  decide

/-! ## C2: positional identity of `useState` slots -/

theorem useState_initial (h : Hooks) (init : Val) (hidx : ¬ h.index < h.state.length) :
    useState h init
      = (init, { h with index := h.index + 1, state := h.state ++ [init] }) := by
  simp [useState, hidx]

theorem useState_existing (h : Hooks) (init : Val) (hlt : h.index < h.state.length) :
    useState h init
      = (h.state.get ⟨h.index, hlt⟩, { h with index := h.index + 1 }) := by
  simp [useState, hlt]

theorem runStates_fresh (inits : List Val) :
    ∀ h : Hooks, h.index = h.state.length →
      runStates inits h
        = (inits, { h with state := h.state ++ inits, index := h.index + inits.length }) := by
  induction inits with
  | nil => intro h hidx; simp [runStates]
  | cons init rest ih =>
    intro h hidx
    rw [runStates, useState_initial h init (by omega)]
    rw [ih { h with index := h.index + 1, state := h.state ++ [init] }
        (by simp [hidx])]
    simp [List.append_assoc]
    omega

theorem runStates_seeded (inits : List Val) :
    ∀ h : Hooks, h.index + inits.length ≤ h.state.length →
      runStates inits h
        = ((h.state.drop h.index).take inits.length,
           { h with index := h.index + inits.length }) := by
  induction inits with
  | nil => intro h _; simp [runStates]
  | cons init rest ih =>
    intro h hlen
    simp only [List.length_cons] at hlen
    have hlt : h.index < h.state.length := by omega
    rw [runStates, useState_existing h init hlt]
    rw [ih { h with index := h.index + 1 } (by simp; omega)]
    simp
    constructor
    · rw [List.drop_eq_getElem_cons hlt, List.take_succ_cons]
    · omega

/-- **C2.**  Positional identity of `useState` slots across two renders
with an unchanged hook-call sequence.  (1) On the first render (no
alternate), every slot stores and returns its initial value, in call
order.  (2) A setter write to slot `k` stores exactly the new value at
slot `k` (when structurally equal to the current value the slot is left
as is, which is that same value) and leaves every other slot unchanged.
(3) On the second render, seeded from the committed store, slot `k`
returns precisely the `k`-th stored value — never a value from another
slot. -/
theorem useState_positional_identity :
    (∀ inits : List Val,
        runStates inits (seedHooks none)
          = (inits, { state := inits, deps := [], effects := [],
                      effectsInitialized := [], index := inits.length }))
    ∧ (∀ (h : Hooks) (position : Nat) (v : Val), position < h.state.length →
        (setState h position v).1.state.getD position (Val.natV 0) = v
        ∧ ∀ j, j ≠ position →
            (setState h position v).1.state.getD j (Val.natV 0)
              = h.state.getD j (Val.natV 0))
    ∧ (∀ (inits stored : List Val) (deps2 : List (Option (List Val)))
          (effs : List Nat) (ei : List Bool) (n : Nat),
        stored.length = inits.length →
        (runStates inits (seedHooks (some
            { state := stored, deps := deps2, effects := effs,
              effectsInitialized := ei, index := n }))).1 = stored) := by
  refine ⟨?_, ?_, ?_⟩
  · intro inits
    rw [runStates_fresh inits (seedHooks none) (by simp [seedHooks])]
    simp [seedHooks]
  · intro h position v hpos
    constructor
    · unfold setState
      split
      next heq => simpa using heq
      next heq => simp [List.getD, List.getElem?_set_eq_of_lt v hpos]
    · intro j hj
      unfold setState
      split
      next heq => simp
      next heq => simp [List.getD, List.getElem?_set_ne (Ne.symm hj)]
  · intro inits stored deps2 effs ei n hlen
    rw [runStates_seeded inits (seedHooks (some
        { state := stored, deps := deps2, effects := effs,
          effectsInitialized := ei, index := n })) (by simp [seedHooks, hlen])]
    simp [seedHooks, hlen]

/-- **C2, witness.**  Concrete instantiation: second render of a
two-slot component whose stored values are `3` and `5` returns exactly
`[3, 5]`. -/
theorem useState_positional_identity_witness :
    (runStates [Val.natV 0, Val.natV 1] (seedHooks (some
        { state := [Val.natV 3, Val.natV 5], deps := [], effects := [],
          effectsInitialized := [], index := 0 }))).1
      = [Val.natV 3, Val.natV 5] :=
  useState_positional_identity.2.2 [Val.natV 0, Val.natV 1]
    [Val.natV 3, Val.natV 5] [] [] [] 0 (by decide)

/-! ## Fiber trees, scheduling (`scheduleUpdate`) and the setter -/

/-- The `effectTag` field: `""` (fresh/root), `"PLACEMENT"`, `"UPDATE"`
or `"DELETION"`. -/
inductive EffectTag where
  | noTag
  | placement
  | update
  | deletion
deriving DecidableEq, Repr

/-- A fiber and (transitively) the subtree hanging off it.  The Go
`child`/`sibling` pointers encode exactly a list of children per fiber
(`child` is the head, each `sibling` the next element), so the tree is
represented as a rose tree; `parent` back-references are implicit.  The
`alternate` pointer is not stored: the previous committed tree is passed
separately wherever the code reads it. -/
inductive FiberT where
  | mk (typeOf : Option NodeType) (tag : EffectTag) (dom : Option Nat)
       (props : List (String × PropEntry)) (hooks : Option Hooks)
       (children : List FiberT)

/-- The `typeOf` field of a fiber. -/
def FiberT.typeOfF : FiberT → Option NodeType
  | .mk t _ _ _ _ _ => t

/-- The `effectTag` field of a fiber. -/
def FiberT.tagF : FiberT → EffectTag
  | .mk _ tg _ _ _ _ => tg

/-- The `dom` field of a fiber (`none` = the zero `js.Value{}`). -/
def FiberT.domF : FiberT → Option Nat
  | .mk _ _ d _ _ _ => d

/-- The `props` field of a fiber. -/
def FiberT.propsF : FiberT → List (String × PropEntry)
  | .mk _ _ _ ps _ _ => ps

/-- The `hooks` field of a fiber. -/
def FiberT.hooksF : FiberT → Option Hooks
  | .mk _ _ _ _ hk _ => hk

/-- The children of a fiber (the `child` pointer plus its `sibling`
chain). -/
def FiberT.childrenF : FiberT → List FiberT
  | .mk _ _ _ _ _ cs => cs

/-- The package-level mutable scheduler state of fiber.go: `wipRoot`,
`currentRoot`, `nextUnitOfWork` and `deletions` (`wipFiber` is modelled
with the reconciler, where it is written). -/
structure EngineState where
  wipRoot : Option FiberT
  currentRoot : Option FiberT
  nextUnitOfWork : Option FiberT
  deletions : List FiberT

/-- The run-time failure scheduleUpdate can hit: dereferencing
`currentRoot` when no pass has ever committed. -/
inductive EngineError where
  | nilCurrentRoot
deriving DecidableEq, Repr

/-- `scheduleUpdate(fiber)` from fiber.go: unconditionally reads
`currentRoot.dom` and `currentRoot.props` to build a fresh
work-in-progress root (alternate = `currentRoot`), points
`nextUnitOfWork` at it and resets `deletions`.  When `currentRoot` is
nil this is a nil-pointer dereference, modelled as the error case. -/
def scheduleUpdate (s : EngineState) : Except EngineError EngineState :=
  match s.currentRoot with
  | none => .error .nilCurrentRoot
  | some cur =>
      let newRoot := FiberT.mk (some (NodeType.tag "ROOT")) .noTag cur.domF
        cur.propsF none []
      .ok { s with wipRoot := some newRoot, nextUnitOfWork := some newRoot,
                   deletions := [] }

/-- The full `useState` setter: compare the stored slot value with the
new one by `reflect.DeepEqual`; when equal do nothing at all, otherwise
write the slot and call `scheduleUpdate`. -/
def setStateOn (s : EngineState) (h : Hooks) (position : Nat) (newValue : Val) :
    Except EngineError (Hooks × EngineState) :=
  if h.state.getD position (Val.natV 0) = newValue then
    .ok (h, s)
  else
    match scheduleUpdate s with
    | .error e => .error e
    | .ok s' => .ok ({ h with state := h.state.set position newValue }, s')

/-- **C9.**  Calling a `useState` setter with a value structurally equal
to the value currently stored in the slot is a no-op: the hook store is
returned unchanged and no pass is scheduled — `wipRoot`,
`nextUnitOfWork` and `deletions` (the whole engine state) are exactly as
before. -/
theorem setter_idempotent (s : EngineState) (h : Hooks) (position : Nat) (v : Val)
    (heq : h.state.getD position (Val.natV 0) = v) :
    setStateOn s h position v = .ok (h, s) := by
  simp only [List.getD, List.get?_eq_getElem?] at heq
  simp [setStateOn, List.getD, heq]

/-- **C9, witness.** -/
theorem setter_idempotent_witness :
    setStateOn ⟨none, none, none, []⟩
        { state := [Val.natV 3], deps := [], effects := [],
          effectsInitialized := [], index := 0 } 0 (Val.natV 3)
      = .ok ({ state := [Val.natV 3], deps := [], effects := [],
               effectsInitialized := [], index := 0 },
             ⟨none, none, none, []⟩) :=
  setter_idempotent ⟨none, none, none, []⟩
    { state := [Val.natV 3], deps := [], effects := [],
      effectsInitialized := [], index := 0 } 0 (Val.natV 3) (by decide)

/-- **C10.**  Scheduling requires a committed pass: a setter call with a
structurally different value reaches `scheduleUpdate`, which
dereferences `currentRoot`; with no committed root that is the
nil-dereference error, and under the precondition that some pass has
committed (`currentRoot` present) the error branch is unreachable — the
call succeeds. -/
theorem scheduleUpdate_requires_committed_root (s : EngineState) (h : Hooks)
    (position : Nat) (v : Val)
    (hne : h.state.getD position (Val.natV 0) ≠ v) :
    (s.currentRoot = none →
      scheduleUpdate s = .error .nilCurrentRoot
      ∧ setStateOn s h position v = .error .nilCurrentRoot)
    ∧ (s.currentRoot ≠ none → (setStateOn s h position v).isOk = true) := by
  simp only [List.getD, List.get?_eq_getElem?] at hne
  constructor
  · intro hnil
    constructor
    · simp [scheduleUpdate, hnil]
    · simp [setStateOn, List.getD, hne, scheduleUpdate, hnil]
  · intro hsome
    match hcur : s.currentRoot with
    | none => exact absurd hcur hsome
    | some cur =>
        simp [setStateOn, List.getD, hne, scheduleUpdate, hcur, Except.isOk,
          Except.toBool]

/-- **C10, witness.** -/
theorem scheduleUpdate_requires_committed_root_witness :
    scheduleUpdate ⟨none, none, none, []⟩ = .error .nilCurrentRoot
    ∧ (setStateOn
        ⟨none, some (FiberT.mk (some (NodeType.tag "ROOT")) .noTag (some 1) [] none []),
         none, []⟩
        { state := [Val.natV 3], deps := [], effects := [],
          effectsInitialized := [], index := 0 } 0 (Val.natV 4)).isOk = true := by
  constructor
  · exact ((scheduleUpdate_requires_committed_root ⟨none, none, none, []⟩
      { state := [Val.natV 3], deps := [], effects := [],
        effectsInitialized := [], index := 0 } 0 (Val.natV 4)
      (by decide)).1 rfl).1
  · exact (scheduleUpdate_requires_committed_root
      ⟨none, some (FiberT.mk (some (NodeType.tag "ROOT")) .noTag (some 1) [] none []),
       none, []⟩
      { state := [Val.natV 3], deps := [], effects := [],
        effectsInitialized := [], index := 0 } 0 (Val.natV 4)
      (by decide)).2 (by simp)

/-! ## Child reconciliation (`reconcileChildren`) -/

/-- The view of an old (previously committed) child fiber that
`reconcileChildren` reads: its type and its host handle.  The old
child list is the `alternate.child` fiber followed by its `sibling`
chain. -/
structure RFiber where
  typeOf : NodeType
  dom : Option Nat
deriving DecidableEq, Repr

/-- The `sameType` computation of `reconcileChildren`: a function
component matches only a function component with the same function
pointer; a tag string matches only an equal tag string
(`reflect.DeepEqual` across distinct dynamic types is false). -/
def sameTypeCheck (elemType oldType : NodeType) : Bool :=
  match elemType with
  | .funcRef p =>
      match oldType with
      | .funcRef q => p == q
      | _ => false
  | .tag s =>
      match oldType with
      | .tag t => s == t
      | _ => false

/-- A fiber produced by `reconcileChildren` for one new child. -/
structure NewFiber where
  typeOf : NodeType
  props : List (String × PropEntry)
  dom : Option Nat
  alternate : Option RFiber
  effectTag : EffectTag

/-- The reuse branch of `reconcileChildren`: same type, so the new
fiber takes the old fiber's `typeOf` and `dom`, the element's props, the
old fiber as `alternate`, and tag `UPDATE`. -/
def updateFiber (e : Element) (old : RFiber) : NewFiber :=
  { typeOf := old.typeOf, props := e.propsOf, dom := old.dom,
    alternate := some old, effectTag := .update }

/-- The fresh branch of `reconcileChildren`: new element with no (or a
differently typed) old fiber, so the new fiber takes the element's type
and props, the zero `js.Value{}` handle, no `alternate`, and tag
`PLACEMENT`. -/
def placementFiber (e : Element) : NewFiber :=
  { typeOf := e.typeOfE, props := e.propsOf, dom := none,
    alternate := none, effectTag := .placement }

/-- `reconcileChildren(wipFiber, elements)` from fiber.go: walk the new
element list and the old child fiber list in lockstep by index (`for
index < len(elements) || oldFiber != nil`).  Returns the new child
fiber list (linked via `child`/`sibling` in the code) and the old fibers
tagged `DELETION` and appended to the global `deletions`, in index
order. -/
def reconcileChildren : List Element → List RFiber → List NewFiber × List RFiber
  | [], [] => ([], [])
  | [], old :: olds =>
      let r := reconcileChildren [] olds
      (r.1, old :: r.2)
  | e :: es, [] =>
      let r := reconcileChildren es []
      (placementFiber e :: r.1, r.2)
  | e :: es, old :: olds =>
      let r := reconcileChildren es olds
      if sameTypeCheck e.typeOfE old.typeOf then
        (updateFiber e old :: r.1, r.2)
      else
        (placementFiber e :: r.1, old :: r.2)

/-- The deletions the claim predicts (written from the claim's words):
every old fiber whose index has a differing-typed or missing new node,
in index order. -/
def deletionsSpec : List Element → List RFiber → List RFiber
  | _, [] => []
  | [], old :: olds => old :: deletionsSpec [] olds
  | e :: es, old :: olds =>
      if sameTypeCheck e.typeOfE old.typeOf then deletionsSpec es olds
      else old :: deletionsSpec es olds

theorem sameTypeCheck_iff (a b : NodeType) : sameTypeCheck a b = true ↔ a = b := by
  cases a <;> cases b <;> simp [sameTypeCheck]

theorem reconcileChildren_nil_fst (olds : List RFiber) :
    (reconcileChildren [] olds).1 = [] := by
  induction olds with
  | nil => simp [reconcileChildren]
  | cons old olds ih => simp [reconcileChildren, ih]

theorem reconcileChildren_length (es : List Element) :
    ∀ olds : List RFiber, (reconcileChildren es olds).1.length = es.length := by
  induction es with
  | nil => intro olds; simp [reconcileChildren_nil_fst]
  | cons e es ih =>
    intro olds
    cases olds with
    | nil => simp [reconcileChildren, ih]
    | cons old olds =>
      by_cases hs : sameTypeCheck e.typeOfE old.typeOf
      · simp [reconcileChildren, hs, ih]
      · simp [reconcileChildren, hs, ih]

theorem reconcileChildren_deletions (es : List Element) :
    ∀ olds : List RFiber, (reconcileChildren es olds).2 = deletionsSpec es olds := by
  induction es with
  | nil =>
    intro olds
    induction olds with
    | nil => simp [reconcileChildren, deletionsSpec]
    | cons old olds ih => simp [reconcileChildren, deletionsSpec, ih]
  | cons e es ih =>
    intro olds
    cases olds with
    | nil => simp [reconcileChildren, deletionsSpec, ih]
    | cons old olds =>
      by_cases hs : sameTypeCheck e.typeOfE old.typeOf
      · simp [reconcileChildren, deletionsSpec, hs, ih]
      · simp [reconcileChildren, deletionsSpec, hs, ih]

theorem reconcileChildren_get (es : List Element) :
    ∀ (olds : List RFiber) (i : Nat), i < es.length →
      ∃ e, es.get? i = some e ∧
        (reconcileChildren es olds).1.get? i
          = some (match olds.get? i with
                  | some old =>
                      if sameTypeCheck e.typeOfE old.typeOf
                      then updateFiber e old
                      else placementFiber e
                  | none => placementFiber e) := by
  induction es with
  | nil => intro olds i hi; simp at hi
  | cons e es ih =>
    intro olds i hi
    cases olds with
    | nil =>
      cases i with
      | zero => exact ⟨e, rfl, by simp [reconcileChildren]⟩
      | succ j =>
        obtain ⟨e', he', hg⟩ := ih [] j (by simp at hi; omega)
        exact ⟨e', he', by simpa [reconcileChildren] using hg⟩
    | cons old olds =>
      by_cases hs : sameTypeCheck e.typeOfE old.typeOf
      · cases i with
        | zero => exact ⟨e, rfl, by simp [reconcileChildren, hs]⟩
        | succ j =>
          obtain ⟨e', he', hg⟩ := ih olds j (by simp at hi; omega)
          exact ⟨e', he', by simpa [reconcileChildren, hs] using hg⟩
      · cases i with
        | zero => exact ⟨e, rfl, by simp [reconcileChildren, hs]⟩
        | succ j =>
          obtain ⟨e', he', hg⟩ := ih olds j (by simp at hi; omega)
          exact ⟨e', he', by simpa [reconcileChildren, hs] using hg⟩

/-- **C3.**  Index-lockstep reconciliation.  (1) Exactly one new fiber
per new element.  (2) At each index with a new element: if an old fiber
exists there with equal type the new fiber is the `UPDATE` reuse of that
old fiber (old fiber as `alternate`, host handle inherited); with a
differing type, or with no old fiber, it is a fresh `PLACEMENT` fiber
with no alternate.  (3) The deletions list is exactly the old fibers at
indices whose new node is missing or differently typed, in index order.
(4) The `sameType` test is type equality: function components by
function reference, tags by tag string. -/
theorem reconcile_type_matching (es : List Element) (olds : List RFiber) :
    (reconcileChildren es olds).1.length = es.length
    ∧ (∀ i, i < es.length →
        ∃ e, es.get? i = some e ∧
          (reconcileChildren es olds).1.get? i
            = some (match olds.get? i with
                    | some old =>
                        if sameTypeCheck e.typeOfE old.typeOf
                        then updateFiber e old
                        else placementFiber e
                    | none => placementFiber e))
    ∧ (reconcileChildren es olds).2 = deletionsSpec es olds
    ∧ (∀ a b, sameTypeCheck a b = true ↔ a = b) :=
  ⟨reconcileChildren_length es olds,
   fun i hi => reconcileChildren_get es olds i hi,
   reconcileChildren_deletions es olds,
   sameTypeCheck_iff⟩

/-- **C3, witness.**  One differing-typed pair at index 0: the new
`div` element yields a placement fiber while the old `span` fiber is
deleted. -/
theorem reconcile_type_matching_witness :
    ∃ e, [Element.mk (NodeType.tag "div") []].get? 0 = some e ∧
      (reconcileChildren [Element.mk (NodeType.tag "div") []]
          [RFiber.mk (NodeType.tag "span") (some 3)]).1.get? 0
        = some (match [RFiber.mk (NodeType.tag "span") (some 3)].get? 0 with
                | some old =>
                    if sameTypeCheck e.typeOfE old.typeOf
                    then updateFiber e old
                    else placementFiber e
                | none => placementFiber e) :=
  (reconcile_type_matching [Element.mk (NodeType.tag "div") []]
    [RFiber.mk (NodeType.tag "span") (some 3)]).2.1 0 (by decide)

/-! ## C8: host-handle stability -/

/-- The host-component branch of `performUnitOfWork`: `if
fiber.dom.IsUndefined() || fiber.dom.IsNull() { fiber.dom =
createDom(fiber) }` — the handle returned by `createDom` is modelled as
the parameter `freshDom`. -/
def performUnitOfWorkHostCase (f : FiberT) (freshDom : Nat) : FiberT :=
  match f.domF with
  | none => FiberT.mk f.typeOfF f.tagF (some freshDom) f.propsF f.hooksF f.childrenF
  | some _ => f

/-- **C8.**  The host handle is set at most once and never reassigned:
(1) a host fiber that already has a handle is left completely untouched
by `performUnitOfWork`; (2) a handle is acquired exactly when the fiber
has none; (3) a fiber created by reuse (`UPDATE`) during reconciliation
inherits the old fiber's handle unchanged (and records the old fiber as
its alternate), so host-node identity is stable across update passes;
(4) a fresh `PLACEMENT` fiber starts with no handle. -/
theorem hostHandle_stable :
    (∀ (f : FiberT) (freshDom d : Nat), f.domF = some d →
        performUnitOfWorkHostCase f freshDom = f)
    ∧ (∀ (f : FiberT) (freshDom : Nat), f.domF = none →
        (performUnitOfWorkHostCase f freshDom).domF = some freshDom)
    ∧ (∀ (e : Element) (old : RFiber),
        (updateFiber e old).dom = old.dom ∧ (updateFiber e old).alternate = some old)
    ∧ (∀ e : Element, (placementFiber e).dom = none) := by
  refine ⟨?_, ?_, ?_, ?_⟩
  · intro f freshDom d hd
    simp [performUnitOfWorkHostCase, hd]
  · intro f freshDom hd
    cases f with
    | mk t tg dm ps hk cs =>
      simp [FiberT.domF] at hd
      simp [performUnitOfWorkHostCase, FiberT.domF, hd]
  · intro e old
    exact ⟨rfl, rfl⟩
  · intro e
    rfl

/-- **C8, witness.** -/
theorem hostHandle_stable_witness :
    performUnitOfWorkHostCase
        (FiberT.mk (some (NodeType.tag "div")) .update (some 9) [] none []) 5
      = FiberT.mk (some (NodeType.tag "div")) .update (some 9) [] none [] :=
  hostHandle_stable.1 (FiberT.mk (some (NodeType.tag "div")) .update (some 9) [] none [])
    5 9 rfl

/-! ## Commit phase (`commitRoot`, `commitWork`, `commitDeletion`,
`executeEffects`) -/

/-- The queued effects of a fiber (`hooks != nil && len(effects) > 0`
reads exactly this list). -/
def FiberT.effectsOf (f : FiberT) : List Nat :=
  match f.hooksF with
  | some hk => hk.effects
  | none => []

/-- One observable host operation of a commit, in emission order:
`appendChild`, property/listener patching (`updateDom`), `removeChild`,
or the invocation of a queued effect callback. -/
inductive HostOp where
  | attach (parent child : Nat)
  | patch (node : Nat)
  | detach (parent child : Nat)
  | runEffect (effectId : Nat)
deriving DecidableEq, Repr

/-- Host-tree mutations (as opposed to effect invocations). -/
def HostOp.isMutation : HostOp → Bool
  | .attach _ _ => true
  | .patch _ => true
  | .detach _ _ => true
  | .runEffect _ => false

def HostOp.isDetach : HostOp → Bool
  | .detach _ _ => true
  | _ => false

def HostOp.isAttach : HostOp → Bool
  | .attach _ _ => true
  | _ => false

def HostOp.isRunEffect : HostOp → Bool
  | .runEffect _ => true
  | _ => false

/-- `commitDeletion(fiber, domParent)` from fiber.go: a fiber with a
host handle is detached from `domParent` (callback release has no host
observable); a fiber without one recurses into its first child only. -/
def commitDeletion (domParent : Nat) : FiberT → List HostOp
  | .mk _ _ (some d) _ _ _ => [.detach domParent d]
  | .mk _ _ none _ _ [] => []
  | .mk _ _ none _ _ (c :: _) => commitDeletion domParent c

/-- `commitWork(fiber)` from fiber.go, over a fiber plus its sibling
chain (the rose-tree encoding of `child`/`sibling`).  `domParent` is the
handle of the nearest ancestor fiber that has one, which the code
recomputes by walking `parent` pointers and this embedding threads down.
Faithful quirks: a `PLACEMENT` fiber without a handle commits its
children and then returns, skipping its siblings; a `DELETION` fiber
ends the walk of its chain. -/
def commitList (domParent : Nat) : List FiberT → List HostOp
  | [] => []
  | .mk t tag dom props hk children :: rest =>
    match tag with
    | .placement =>
      match dom with
      | some d =>
          HostOp.attach domParent d ::
            (commitList d children ++ commitList domParent rest)
      | none => commitList domParent children
    | .update =>
        (match dom with
         | some d => [HostOp.patch d]
         | none => []) ++
          commitList (dom.getD domParent) children ++ commitList domParent rest
    | .deletion => commitDeletion domParent (.mk t tag dom props hk children)
    | .noTag =>
        commitList (dom.getD domParent) children ++ commitList domParent rest

/-- The `collectEffects` walk of `executeEffects`: visit the fiber (keep
it when it has hooks with queued effects), then its child subtree, then
its sibling chain. -/
def collectEffectsList : List FiberT → List FiberT
  | [] => []
  | .mk t tag dom props hk children :: rest =>
      (if (FiberT.mk t tag dom props hk children).effectsOf = [] then []
       else [FiberT.mk t tag dom props hk children])
        ++ collectEffectsList children ++ collectEffectsList rest

/-- Pre-order enumeration of the fibers of a forest: a fiber, then its
child subtree, then its sibling chain.  Written from the spec's words to
compare against `collectEffectsList`. -/
def preorderList : List FiberT → List FiberT
  | [] => []
  | .mk t tag dom props hk children :: rest =>
      FiberT.mk t tag dom props hk children ::
        (preorderList children ++ preorderList rest)

/-- The effect-clearing mutation of `executeEffects`: every collected
fiber (one with queued effects) has its `effects` slice truncated to
empty; other fibers are untouched. -/
def clearEffectsList : List FiberT → List FiberT
  | [] => []
  | .mk t tag dom props hk children :: rest =>
      (if (FiberT.mk t tag dom props hk children).effectsOf = [] then
        FiberT.mk t tag dom props hk (clearEffectsList children)
      else
        FiberT.mk t tag dom props
          (match hk with
           | some h => some { h with effects := [] }
           | none => none)
          (clearEffectsList children)) :: clearEffectsList rest

/-- No fiber in the forest carries queued effects. -/
def allEffectsEmptyList : List FiberT → Bool
  | [] => true
  | .mk t tag dom props hk children :: rest =>
      ((FiberT.mk t tag dom props hk children).effectsOf = [] : Bool)
        && allEffectsEmptyList children && allEffectsEmptyList rest

/-- No fiber in the forest is tagged `DELETION` (true of every tree
produced by `reconcileChildren`, whose new fibers are only `UPDATE` or
`PLACEMENT`). -/
def noDeletionTagsList : List FiberT → Bool
  | [] => true
  | .mk _ tag _ _ _ children :: rest =>
      (tag ≠ EffectTag.deletion : Bool)
        && noDeletionTagsList children && noDeletionTagsList rest

/-- `commitRoot()` followed by `executeEffects()`, as the emitted
operation trace: first `commitWork` on each entry of `deletions` (paired
here with its nearest dom-bearing ancestor's handle), then `commitWork`
on the root's child chain, then the queued effects of the committed tree
in collection order. -/
def commitRootTrace (rootDom : Nat) (deletions : List (Nat × FiberT))
    (children : List FiberT) : List HostOp :=
  (deletions.map fun pf => commitList pf.1 [pf.2]).flatten
    ++ commitList rootDom children
    ++ (collectEffectsList children).flatMap fun f => f.effectsOf.map HostOp.runEffect

theorem commitDeletion_all_detach :
    ∀ (p : Nat) (f : FiberT), ∀ op ∈ commitDeletion p f, op.isDetach = true
  | _, .mk _ _ (some _) _ _ _ => by
      simp [commitDeletion, HostOp.isDetach]
  | _, .mk _ _ none _ _ [] => by
      simp [commitDeletion]
  | p, .mk _ _ none _ _ (c :: _) => by
      simpa [commitDeletion] using commitDeletion_all_detach p c

theorem commitList_live_ops :
    ∀ (p : Nat) (fs : List FiberT), noDeletionTagsList fs = true →
      ∀ op ∈ commitList p fs, op.isDetach = false ∧ op.isRunEffect = false
  | _, [], _ => by simp [commitList]
  | p, .mk t .deletion dom props hk children :: rest, hnd => by
      simp [noDeletionTagsList] at hnd
  | p, .mk t .placement dom props hk children :: rest, hnd => by
      simp only [noDeletionTagsList, Bool.and_eq_true, decide_eq_true_eq] at hnd
      obtain ⟨⟨-, hch⟩, hrest⟩ := hnd
      intro op hop
      cases dom with
      | some d =>
        simp only [commitList, List.mem_cons, List.mem_append] at hop
        rcases hop with h | h | h
        · subst h; exact ⟨rfl, rfl⟩
        · exact commitList_live_ops d children hch op h
        · exact commitList_live_ops p rest hrest op h
      | none =>
        simp only [commitList] at hop
        exact commitList_live_ops p children hch op hop
  | p, .mk t .update dom props hk children :: rest, hnd => by
      simp only [noDeletionTagsList, Bool.and_eq_true, decide_eq_true_eq] at hnd
      obtain ⟨⟨-, hch⟩, hrest⟩ := hnd
      intro op hop
      cases dom with
      | some d =>
        simp only [commitList, List.cons_append, List.nil_append, List.mem_cons,
          List.mem_append] at hop
        rcases hop with h | h | h
        · subst h; exact ⟨rfl, rfl⟩
        · exact commitList_live_ops ((some d).getD p) children hch op h
        · exact commitList_live_ops p rest hrest op h
      | none =>
        simp only [commitList, List.nil_append, List.mem_append] at hop
        rcases hop with h | h
        · exact commitList_live_ops ((none : Option Nat).getD p) children hch op h
        · exact commitList_live_ops p rest hrest op h
  | p, .mk t .noTag dom props hk children :: rest, hnd => by
      simp only [noDeletionTagsList, Bool.and_eq_true, decide_eq_true_eq] at hnd
      obtain ⟨⟨-, hch⟩, hrest⟩ := hnd
      intro op hop
      simp only [commitList, List.mem_append] at hop
      rcases hop with h | h
      · exact commitList_live_ops (dom.getD p) children hch op h
      · exact commitList_live_ops p rest hrest op h

theorem commitList_deletion_fiber (p : Nat) (f : FiberT)
    (hf : f.tagF = EffectTag.deletion) :
    commitList p [f] = commitDeletion p f := by
  cases f with
  | mk t tag dom props hk children =>
    simp only [FiberT.tagF] at hf
    subst hf
    simp [commitList]

theorem collectEffects_flatMap_eq :
    ∀ fs : List FiberT,
      ((collectEffectsList fs).flatMap fun f => f.effectsOf.map HostOp.runEffect)
        = (preorderList fs).flatMap fun f => f.effectsOf.map HostOp.runEffect
  | [] => by simp [collectEffectsList, preorderList]
  | .mk t tag dom props hk children :: rest => by
      by_cases he : (FiberT.mk t tag dom props hk children).effectsOf = []
      · simp [collectEffectsList, preorderList, he,
          collectEffects_flatMap_eq children, collectEffects_flatMap_eq rest]
      · simp [collectEffectsList, preorderList, he,
          collectEffects_flatMap_eq children, collectEffects_flatMap_eq rest]

theorem clearEffects_all_empty :
    ∀ fs : List FiberT, allEffectsEmptyList (clearEffectsList fs) = true
  | [] => by simp [clearEffectsList, allEffectsEmptyList]
  | .mk t tag dom props hk children :: rest => by
      unfold clearEffectsList
      by_cases he : (FiberT.mk t tag dom props hk children).effectsOf = []
      · rw [if_pos he]
        unfold allEffectsEmptyList
        simp only [FiberT.effectsOf, FiberT.hooksF] at he
        simp [he, FiberT.effectsOf, FiberT.hooksF,
          clearEffects_all_empty children, clearEffects_all_empty rest]
      · rw [if_neg he]
        cases hk with
        | none => simp [FiberT.effectsOf, FiberT.hooksF] at he
        | some h =>
          unfold allEffectsEmptyList
          simp [FiberT.effectsOf, FiberT.hooksF,
            clearEffects_all_empty children, clearEffects_all_empty rest]

theorem hostOp_detach_not_attach (op : HostOp) (h : op.isDetach = true) :
    op.isAttach = false := by
  cases op <;> simp_all [HostOp.isDetach, HostOp.isAttach]

theorem hostOp_detach_not_runEffect (op : HostOp) (h : op.isDetach = true) :
    op.isRunEffect = false := by
  cases op <;> simp_all [HostOp.isDetach, HostOp.isRunEffect]

theorem hostOp_runEffect_not_detach (op : HostOp) (h : op.isRunEffect = true) :
    op.isDetach = false := by
  cases op <;> simp_all [HostOp.isRunEffect, HostOp.isDetach]

theorem hostOp_runEffect_not_attach (op : HostOp) (h : op.isRunEffect = true) :
    op.isAttach = false := by
  cases op <;> simp_all [HostOp.isRunEffect, HostOp.isAttach]

theorem hostOp_runEffect_not_mutation (op : HostOp) (h : op.isRunEffect = true) :
    op.isMutation = false := by
  cases op <;> simp_all [HostOp.isRunEffect, HostOp.isMutation]

theorem segment_order {α : Type} (A B : List α) (P Q : α → Bool)
    (hPB : ∀ x ∈ B, P x = false) (hQA : ∀ x ∈ A, Q x = false)
    (i j : Nat) (op op' : α)
    (hi : (A ++ B).get? i = some op) (hj : (A ++ B).get? j = some op')
    (hP : P op = true) (hQ : Q op' = true) : i < j := by
  have hiA : i < A.length := by
    by_contra hge
    push_neg at hge
    rw [List.get?_append_right hge] at hi
    have hmem : op ∈ B := List.get?_mem hi
    rw [hPB op hmem] at hP
    exact Bool.false_ne_true hP
  have hjB : A.length ≤ j := by
    by_contra hlt
    push_neg at hlt
    rw [List.get?_append hlt] at hj
    have hmem : op' ∈ A := List.get?_mem hj
    rw [hQA op' hmem] at hQ
    exact Bool.false_ne_true hQ
  omega

/-- **C4.**  Two-phase commit ordering.  With `deletions` the tagged old
fibers (each paired with its nearest dom-bearing ancestor's handle) and
`children` the live committed tree (which `reconcileChildren` never tags
`DELETION`): (1) in the emitted trace every deletion detachment comes
strictly before every placement attachment; (2) every host mutation
comes strictly before every queued-effect invocation; (3) the effect
pass runs the queued effects of exactly the pre-order enumeration of the
committed tree's fibers, in that order; (4) after the effect pass every
fiber's queued-effects list is empty. -/
theorem commit_ordering (rootDom : Nat) (deletions : List (Nat × FiberT))
    (children : List FiberT)
    (hdel : ∀ pf ∈ deletions, (pf : Nat × FiberT).2.tagF = EffectTag.deletion)
    (hlive : noDeletionTagsList children = true) :
    (∀ i j op op',
        (commitRootTrace rootDom deletions children).get? i = some op →
        (commitRootTrace rootDom deletions children).get? j = some op' →
        op.isDetach = true → op'.isAttach = true → i < j)
    ∧ (∀ i j op op',
        (commitRootTrace rootDom deletions children).get? i = some op →
        (commitRootTrace rootDom deletions children).get? j = some op' →
        op.isMutation = true → op'.isRunEffect = true → i < j)
    ∧ ((collectEffectsList children).flatMap
          (fun f => f.effectsOf.map HostOp.runEffect)
        = (preorderList children).flatMap
            (fun f => f.effectsOf.map HostOp.runEffect))
    ∧ allEffectsEmptyList (clearEffectsList children) = true := by
  have hdelDetach : ∀ op ∈ (deletions.map fun pf => commitList pf.1 [pf.2]).flatten,
      op.isDetach = true := by
    intro op hop
    rw [List.mem_flatten] at hop
    obtain ⟨s, hs, hmem⟩ := hop
    rw [List.mem_map] at hs
    obtain ⟨pf, hpf, rfl⟩ := hs
    rw [commitList_deletion_fiber pf.1 pf.2 (hdel pf hpf)] at hmem
    exact commitDeletion_all_detach pf.1 pf.2 op hmem
  have heffOps : ∀ op ∈ ((collectEffectsList children).flatMap
      fun f => f.effectsOf.map HostOp.runEffect), op.isRunEffect = true := by
    intro op hop
    rw [List.mem_flatMap] at hop
    obtain ⟨f, _, hmem⟩ := hop
    rw [List.mem_map] at hmem
    obtain ⟨e, _, rfl⟩ := hmem
    rfl
  have htr2 : commitRootTrace rootDom deletions children
      = ((deletions.map fun pf => commitList pf.1 [pf.2]).flatten
          ++ commitList rootDom children)
        ++ ((collectEffectsList children).flatMap fun f =>
              f.effectsOf.map HostOp.runEffect) := rfl
  have htr1 : commitRootTrace rootDom deletions children
      = (deletions.map fun pf => commitList pf.1 [pf.2]).flatten
        ++ (commitList rootDom children
          ++ ((collectEffectsList children).flatMap fun f =>
                f.effectsOf.map HostOp.runEffect)) := by
    rw [htr2, List.append_assoc]
  refine ⟨?_, ?_, collectEffects_flatMap_eq children, clearEffects_all_empty children⟩
  · intro i j op op' hi hj hP hQ
    rw [htr1] at hi hj
    refine segment_order _ _ HostOp.isDetach HostOp.isAttach ?_ ?_ i j op op' hi hj hP hQ
    · intro x hx
      rcases List.mem_append.mp hx with hx | hx
      · exact (commitList_live_ops rootDom children hlive x hx).1
      · exact hostOp_runEffect_not_detach x (heffOps x hx)
    · intro x hx
      exact hostOp_detach_not_attach x (hdelDetach x hx)
  · intro i j op op' hi hj hP hQ
    rw [htr2] at hi hj
    refine segment_order _ _ HostOp.isMutation HostOp.isRunEffect ?_ ?_ i j op op' hi hj hP hQ
    · intro x hx
      exact hostOp_runEffect_not_mutation x (heffOps x hx)
    · intro x hx
      rcases List.mem_append.mp hx with hx | hx
      · exact hostOp_detach_not_runEffect x (hdelDetach x hx)
      · exact (commitList_live_ops rootDom children hlive x hx).2

/-- **C4, witness.**  One deleted `span` (detached from the container)
and one placed `div` carrying a queued effect: the trace is detach,
attach, then the effect run; the detach index precedes the attach index
and the attach index precedes the effect index. -/
theorem commit_ordering_witness :
    commitRootTrace 0
        [(0, FiberT.mk (some (NodeType.tag "span")) .deletion (some 4) [] none [])]
        [FiberT.mk (some (NodeType.tag "div")) .placement (some 5) []
          (some { state := [], deps := [], effects := [9],
                  effectsInitialized := [], index := 0 }) []]
      = [HostOp.detach 0 4, HostOp.attach 0 5, HostOp.runEffect 9]
    ∧ (0 : Nat) < 1 ∧ (1 : Nat) < 2 := by
  have htr : commitRootTrace 0
      [(0, FiberT.mk (some (NodeType.tag "span")) .deletion (some 4) [] none [])]
      [FiberT.mk (some (NodeType.tag "div")) .placement (some 5) []
        (some { state := [], deps := [], effects := [9],
                effectsInitialized := [], index := 0 }) []]
      = [HostOp.detach 0 4, HostOp.attach 0 5, HostOp.runEffect 9] := by
    simp [commitRootTrace, commitList, commitDeletion, collectEffectsList,
      FiberT.effectsOf, FiberT.hooksF]
  refine ⟨htr, ?_, ?_⟩
  · exact (commit_ordering 0
      [(0, FiberT.mk (some (NodeType.tag "span")) .deletion (some 4) [] none [])]
      [FiberT.mk (some (NodeType.tag "div")) .placement (some 5) []
        (some { state := [], deps := [], effects := [9],
                effectsInitialized := [], index := 0 }) []]
      (by intro pf hpf; simp only [List.mem_singleton] at hpf; subst hpf; rfl)
      (by simp [noDeletionTagsList])).1
      0 1 (HostOp.detach 0 4) (HostOp.attach 0 5)
      (by rw [htr]; simp) (by rw [htr]; simp) rfl rfl
  · exact (commit_ordering 0
      [(0, FiberT.mk (some (NodeType.tag "span")) .deletion (some 4) [] none [])]
      [FiberT.mk (some (NodeType.tag "div")) .placement (some 5) []
        (some { state := [], deps := [], effects := [9],
                effectsInitialized := [], index := 0 }) []]
      (by intro pf hpf; simp only [List.mem_singleton] at hpf; subst hpf; rfl)
      (by simp [noDeletionTagsList])).2.1
      1 2 (HostOp.attach 0 5) (HostOp.runEffect 9)
      (by rw [htr]; simp) (by rw [htr]; simp) rfl rfl

/-! ## Work loop (`workLoop`, `performUnitOfWork` traversal) -/

/-- The number of fibers in a forest (units of work of a pass). -/
def sizeListF : List FiberT → Nat
  | [] => 0
  | .mk _ _ _ _ _ children :: rest => 1 + sizeListF children + sizeListF rest

/-- The `for nextFiber != nil { if sibling return sibling; nextFiber =
parent }` climb at the end of `performUnitOfWork`: the resumption stack
holds, innermost first, the not-yet-visited siblings at each ancestor
level; climbing pops levels until a sibling exists, and an empty stack
is the root terminating the pass. -/
def popStack : List (List FiberT) → Option (FiberT × List (List FiberT))
  | [] => none
  | [] :: rest => popStack rest
  | (s :: ss) :: rest => some (s, ss :: rest)

/-- The "next unit of work" selection of `performUnitOfWork`: after
processing a fiber, its first child if any (pushing the remaining
children as the new innermost sibling level), otherwise the climb
`popStack`. -/
def nextUnit (f : FiberT) (stack : List (List FiberT)) :
    Option (FiberT × List (List FiberT)) :=
  match f.childrenF with
  | c :: cs => some (c, cs :: stack)
  | [] => popStack stack

/-- Iterating the next-unit selection. -/
def stepN : Nat → Option (FiberT × List (List FiberT)) → Option (FiberT × List (List FiberT))
  | 0, s => s
  | _ + 1, none => none
  | n + 1, some (f, st) => stepN n (nextUnit f st)

/-- The fibers visited by iterating the next-unit selection. -/
def walkN : Nat → Option (FiberT × List (List FiberT)) → List FiberT
  | 0, _ => []
  | _ + 1, none => []
  | n + 1, some (f, st) => f :: walkN n (nextUnit f st)

theorem nextUnit_popStack (t : Option NodeType) (tag : EffectTag) (dom : Option Nat)
    (props : List (String × PropEntry)) (hk : Option Hooks)
    (children : List FiberT) (st : List (List FiberT)) :
    nextUnit (.mk t tag dom props hk children) st = popStack (children :: st) := by
  cases children <;> simp [nextUnit, FiberT.childrenF, popStack]

theorem stepN_add (m n : Nat) :
    ∀ s, stepN (m + n) s = stepN n (stepN m s) := by
  induction m with
  | zero => intro s; simp [stepN]
  | succ k ih =>
    intro s
    cases s with
    | none =>
      have h1 : stepN (k + 1) (none : Option (FiberT × List (List FiberT))) = none := rfl
      rw [h1]
      have h2 : ∀ j, stepN j (none : Option (FiberT × List (List FiberT))) = none := by
        intro j; cases j <;> rfl
      rw [Nat.succ_add]
      rw [show stepN (k + n + 1) (none : Option (FiberT × List (List FiberT))) = none from rfl]
      rw [h2 n]
    | some p =>
      obtain ⟨f, st⟩ := p
      rw [Nat.succ_add]
      show stepN (k + n) (nextUnit f st) = stepN n (stepN k (nextUnit f st))
      exact ih (nextUnit f st)

theorem walkN_add (m n : Nat) :
    ∀ s, walkN (m + n) s = walkN m s ++ walkN n (stepN m s) := by
  induction m with
  | zero => intro s; simp [walkN, stepN]
  | succ k ih =>
    intro s
    cases s with
    | none =>
      have h2 : ∀ j, walkN j (none : Option (FiberT × List (List FiberT))) = [] := by
        intro j; cases j <;> rfl
      have h3 : ∀ j, stepN j (none : Option (FiberT × List (List FiberT))) = none := by
        intro j; cases j <;> rfl
      rw [Nat.succ_add, h2, h2, h3, h2]
      rfl
    | some p =>
      obtain ⟨f, st⟩ := p
      rw [Nat.succ_add]
      show f :: walkN (k + n) (nextUnit f st)
        = (f :: walkN k (nextUnit f st)) ++ walkN n (stepN (k + 1) (some (f, st)))
      rw [ih (nextUnit f st)]
      rfl

theorem preorderList_length :
    ∀ fs : List FiberT, (preorderList fs).length = sizeListF fs
  | [] => by simp [preorderList, sizeListF]
  | .mk t tag dom props hk children :: rest => by
      simp [preorderList, sizeListF, preorderList_length children,
        preorderList_length rest]
      omega

/-- Walking a whole sibling level costs exactly its size and lands on
the climb past that level, visiting the level's fibers in pre-order. -/
theorem walk_forest :
    ∀ (cs : List FiberT) (st : List (List FiberT)),
      stepN (sizeListF cs) (popStack (cs :: st)) = popStack st
      ∧ walkN (sizeListF cs) (popStack (cs :: st)) = preorderList cs
  | [], st => by
      have hs : sizeListF ([] : List FiberT) = 0 := by simp [sizeListF]
      rw [hs]
      exact ⟨rfl, by simp [walkN, preorderList]⟩
  | .mk t tag dom props hk children :: rest, st => by
      have h1 := walk_forest children (rest :: st)
      have h2 := walk_forest rest st
      have hpop : popStack ((FiberT.mk t tag dom props hk children :: rest) :: st)
          = some (FiberT.mk t tag dom props hk children, rest :: st) := rfl
      have hsz : sizeListF (FiberT.mk t tag dom props hk children :: rest)
          = 1 + (sizeListF children + sizeListF rest) := by
        simp [sizeListF]
        omega
      have hone : stepN 1 (some (FiberT.mk t tag dom props hk children, rest :: st))
          = popStack (children :: rest :: st) :=
        nextUnit_popStack t tag dom props hk children (rest :: st)
      have honeW : walkN 1 (some (FiberT.mk t tag dom props hk children, rest :: st))
          = [FiberT.mk t tag dom props hk children] := rfl
      constructor
      · rw [hpop, hsz, stepN_add, hone, stepN_add, h1.1, h2.1]
      · rw [hpop, hsz, walkN_add, honeW, hone, walkN_add, h1.2, h1.1, h2.2]
        simp [preorderList]

/-- Starting at a fiber with a resumption stack: the walk visits the
fiber's whole subtree in pre-order, in exactly its size many units, then
resumes with the stack. -/
theorem walk_tree (f : FiberT) (st : List (List FiberT)) :
    stepN (sizeListF [f]) (some (f, st)) = popStack st
    ∧ walkN (sizeListF [f]) (some (f, st)) = preorderList [f] := by
  cases f with
  | mk t tag dom props hk children =>
    have h1 := walk_forest children st
    have hsz : sizeListF [FiberT.mk t tag dom props hk children]
        = 1 + sizeListF children := by
      simp [sizeListF]
    have hone : stepN 1 (some (FiberT.mk t tag dom props hk children, st))
        = popStack (children :: st) :=
      nextUnit_popStack t tag dom props hk children st
    have honeW : walkN 1 (some (FiberT.mk t tag dom props hk children, st))
        = [FiberT.mk t tag dom props hk children] := rfl
    constructor
    · rw [hsz, stepN_add, hone, h1.1]
    · rw [hsz, walkN_add, honeW, hone, h1.2]
      simp [preorderList]

/-- The scheduler state `workLoop` reads: `nextUnitOfWork` (the fiber to
process next, with its resumption stack) and whether `wipRoot` is still
pending commit. -/
structure LoopState where
  nextUnitOfWork : Option (FiberT × List (List FiberT))
  wipRootPresent : Bool

/-- One invocation of `workLoop(deadline)` under a scheduler that yields
after every single unit of work (`timeRemaining < 1` as soon as one unit
ran): at most one `performUnitOfWork` runs, then `if wipRoot != nil &&
nextUnitOfWork == nil` the pass commits (after which `wipRoot = nil`),
else the loop re-enqueues itself.  Returns the new state, the fibers
visited, and whether this invocation committed. -/
def workLoopInvoke (s : LoopState) : LoopState × List FiberT × Bool :=
  match s.nextUnitOfWork with
  | none =>
      if s.wipRootPresent then (⟨none, false⟩, [], true)
      else (s, [], false)
  | some (f, st) =>
      let next := nextUnit f st
      if s.wipRootPresent && next.isNone then
        (⟨next, false⟩, [f], true)
      else
        (⟨next, s.wipRootPresent⟩, [f], false)

/-- `n` consecutive `workLoop` invocations: accumulated visited fibers
and number of commits. -/
def workLoopRun : Nat → LoopState → LoopState × List FiberT × Nat
  | 0, s => (s, [], 0)
  | n + 1, s =>
      ((workLoopRun n (workLoopInvoke s).1).1,
       (workLoopInvoke s).2.1 ++ (workLoopRun n (workLoopInvoke s).1).2.1,
       (if (workLoopInvoke s).2.2 then 1 else 0)
         + (workLoopRun n (workLoopInvoke s).1).2.2)

theorem walkN_full_no_none :
    ∀ (n : Nat) (s : Option (FiberT × List (List FiberT))),
      (walkN n s).length = n → ∀ k, k < n → stepN k s ≠ none := by
  intro n
  induction n with
  | zero => intro s _ k hk; omega
  | succ m ih =>
    intro s hlen k hk
    cases s with
    | none => simp [walkN] at hlen
    | some p =>
      obtain ⟨f, st⟩ := p
      have hlen' : (walkN m (nextUnit f st)).length = m := by
        simpa [walkN] using hlen
      cases k with
      | zero => simp [stepN]
      | succ j =>
        show stepN j (nextUnit f st) ≠ none
        exact ih (nextUnit f st) hlen' j (by omega)

theorem workLoopRun_characterization :
    ∀ (n : Nat) (pos : FiberT × List (List FiberT)),
      (∀ k, k < n → stepN k (some pos) ≠ none) →
      workLoopRun n ⟨some pos, true⟩
        = (⟨stepN n (some pos), !(stepN n (some pos)).isNone⟩,
           walkN n (some pos),
           if (stepN n (some pos)).isNone then 1 else 0) := by
  intro n
  induction n with
  | zero =>
    intro pos _
    simp [workLoopRun, stepN, walkN]
  | succ m ih =>
    intro pos hno
    obtain ⟨f, st⟩ := pos
    cases hnext : nextUnit f st with
    | none =>
      have hm : m = 0 := by
        by_contra hne
        have h1 : stepN 1 (some (f, st)) = nextUnit f st := rfl
        exact hno 1 (by omega) (by rw [h1, hnext])
      subst hm
      simp [workLoopRun, workLoopInvoke, hnext, stepN, walkN]
    | some pos' =>
      have hshift : ∀ k, stepN (k + 1) (some (f, st)) = stepN k (some pos') := by
        intro k
        show stepN k (nextUnit f st) = stepN k (some pos')
        rw [hnext]
      have hno' : ∀ k, k < m → stepN k (some pos') ≠ none := by
        intro k hk
        rw [← hshift k]
        exact hno (k + 1) (by omega)
      have hwalk : walkN (m + 1) (some (f, st)) = f :: walkN m (some pos') := by
        show f :: walkN m (nextUnit f st) = _
        rw [hnext]
      rw [hshift m, hwalk]
      have hrun := ih pos' hno'
      have hinv : workLoopInvoke ⟨some (f, st), true⟩
          = (⟨some pos', true⟩, [f], false) := by
        simp [workLoopInvoke, hnext]
      simp [workLoopRun, hinv, hrun]

/-- **C5.**  Yield/resume correctness of the work loop with the
pre-order traversal of `performUnitOfWork` (child first, else climb via
sibling/parent, root terminates).  For a work-in-progress tree `t` of
`N = sizeListF [t]` fibers, with the scheduler yielding after every
single unit: (1) `N` consecutive `workLoop` invocations visit exactly
the pre-order enumeration of the tree — every fiber exactly once; (2)
the pre-order enumeration has exactly `N` entries; (3) across the `N`
invocations exactly one commit happens; (4) no commit happens within the
first `k < N` invocations, so the single commit is at invocation `N`. -/
theorem workLoop_yield_resume (t : FiberT) :
    (workLoopRun (sizeListF [t]) ⟨some (t, []), true⟩).2.1 = preorderList [t]
    ∧ (preorderList [t]).length = sizeListF [t]
    ∧ (workLoopRun (sizeListF [t]) ⟨some (t, []), true⟩).2.2 = 1
    ∧ (∀ k, k < sizeListF [t] →
        (workLoopRun k ⟨some (t, []), true⟩).2.2 = 0) := by
  have hw := walk_tree t []
  have hstepN : stepN (sizeListF [t]) (some (t, [])) = none := by
    rw [hw.1]; rfl
  have hlen : (walkN (sizeListF [t]) (some (t, []))).length = sizeListF [t] := by
    rw [hw.2, preorderList_length]
  have hno : ∀ k, k < sizeListF [t] → stepN k (some (t, [])) ≠ none :=
    walkN_full_no_none (sizeListF [t]) (some (t, [])) hlen
  have hrun := workLoopRun_characterization (sizeListF [t]) (t, []) hno
  refine ⟨?_, preorderList_length [t], ?_, ?_⟩
  · rw [hrun]
    simpa using hw.2
  · rw [hrun]
    simp [hstepN]
  · intro k hk
    have hnoK : ∀ j, j < k → stepN j (some (t, [])) ≠ none :=
      fun j hj => hno j (by omega)
    have hrunK := workLoopRun_characterization k (t, []) hnoK
    cases hsk : stepN k (some (t, [])) with
    | none => exact absurd hsk (hno k hk)
    | some p =>
      rw [hrunK]
      simp [hsk]

/-- **C5, witness.**  A two-fiber tree (a `div` with one text child):
two invocations visit root then child and commit once; the first
invocation alone commits nothing. -/
theorem workLoop_yield_resume_witness :
    (workLoopRun 1
        ⟨some (FiberT.mk (some (NodeType.tag "div")) .placement none [] none
          [FiberT.mk (some (NodeType.tag "TEXT_ELEMENT")) .placement none [] none []],
          []), true⟩).2.2 = 0 :=
  (workLoop_yield_resume
    (FiberT.mk (some (NodeType.tag "div")) .placement none [] none
      [FiberT.mk (some (NodeType.tag "TEXT_ELEMENT")) .placement none [] none []])).2.2.2
    1 (by simp [sizeListF])

/-! ## C6: the active component fiber (`wipFiber`) -/

/-- The package-level `wipFiber` variable that `getCurrentFiber` reads:
the fiber whose render is resolving hook calls, identified here by a
number. -/
structure RenderGlobals where
  wipFiber : Option Nat
deriving DecidableEq, Repr

/-- The function-component branch of `performUnitOfWork`: `wipFiber =
fiber` is assigned, the hooks are seeded from the alternate
(`seedHooks`), the component function runs its hook calls, and the
returned child is reconciled (`reconcileChildren`'s parameter shadows
the global, which it never writes).  The branch contains no assignment
clearing `wipFiber` — fiber.go never sets it back to nil. -/
def performUnitOfWorkFunctionCase (g : RenderGlobals) (fiberId : Nat)
    (altHooks : Option Hooks) (calls : List HookCall) : RenderGlobals × Hooks :=
  let g1 : RenderGlobals := { g with wipFiber := some fiberId }
  (g1, runHooks calls (seedHooks altHooks))

/-- **C6, counterexample.**  After the engine finishes processing a
function-component fiber (id 5, empty body), the active component fiber
is still that fiber — it is not cleared, so a fiber does remain the
active component fiber between component renders. -/
theorem wipFiber_not_cleared :
    (performUnitOfWorkFunctionCase ⟨none⟩ 5 none []).1.wipFiber = some 5
    ∧ (performUnitOfWorkFunctionCase ⟨none⟩ 5 none []).1.wipFiber ≠ none := by
  constructor
  · rfl
  · intro h
    simp [performUnitOfWorkFunctionCase] at h

/-- **C6, amended.**  The engine makes the fiber the active component
fiber before invoking the component function, and after the component
returns and its child is reconciled the active component fiber STILL
refers to that fiber — it is never cleared; it only changes when the
next function-component render overwrites it with the new fiber. -/
theorem wipFiber_set_and_retained (g : RenderGlobals) (fiberId fiberId2 : Nat)
    (altHooks altHooks2 : Option Hooks) (calls calls2 : List HookCall) :
    (performUnitOfWorkFunctionCase g fiberId altHooks calls).1.wipFiber = some fiberId
    ∧ (performUnitOfWorkFunctionCase
        (performUnitOfWorkFunctionCase g fiberId altHooks calls).1
        fiberId2 altHooks2 calls2).1.wipFiber = some fiberId2 :=
  ⟨rfl, rfl⟩

end GWC
